import Mathlib

/-!
The BN.SUM4 self-test (`4-soc/csrc/bn_sum4_test_4soc.c`)

A shallow embedding of the bare-metal self-test of the packed 4-way signed
accumulate instruction.  Machine integers are modelled as follows.

* `uint32_t` values are natural numbers; the shifts and masks of the source are
  the `>>>` and `&&&` of `Nat`.
* `int8_t` and `int32_t` values are integers; the conversion from an unsigned
  value keeps the low 8 (resp. 32) bits and reads them in two's complement.
* `int32_t` addition and subtraction wrap modulo `2 ^ 32`.
-/

namespace BnSum4

/-! ## Machine integers -/

/-- The cast `(int8_t) x` of an unsigned value: low byte, two's complement. -/
def toInt8 (x : Nat) : Int :=
  if x % 256 < 128 then (x % 256 : Nat) else ((x % 256 : Nat) : Int) - 256

/-- The cast `(int32_t) x` of an unsigned value: low 32 bits, two's complement. -/
def toInt32 (x : Nat) : Int :=
  if x % 4294967296 < 2147483648 then (x % 4294967296 : Nat)
  else ((x % 4294967296 : Nat) : Int) - 4294967296

/-- Reduction of a mathematical integer to the `int32_t` range (wrap-around). -/
def wrapInt32 (z : Int) : Int :=
  (z + 2147483648) % 4294967296 - 2147483648

/-! ## The software reference -/

/-- The helper `w2_to_int` of the source (lines 17-22). -/
def w2_to_int (w2 : Nat) : Int :=
  if w2 = 1 then 1
  else if w2 = 2 then -1
  else 0

/-- The helper `acc` of the source (lines 24-31): the accumulator `*s` is passed
in and the updated accumulator is returned. -/
def acc (s : Int) (a : Int) (w2 : Nat) : Int :=
  match w2 &&& 3 with
  | 1 => wrapInt32 (s + a)
  | 2 => wrapInt32 (s - a)
  | _ => s

/-- The function `bn_sum4_ref` of the source (lines 33-51). -/
def bn_sum4_ref (acts_packed wts_packed : Nat) : Int :=
  let a0 := toInt8 (acts_packed >>> 0)
  let a1 := toInt8 (acts_packed >>> 8)
  let a2 := toInt8 (acts_packed >>> 16)
  let a3 := toInt8 (acts_packed >>> 24)
  let w0 := (wts_packed >>> 0) &&& 0x3
  let w1 := (wts_packed >>> 2) &&& 0x3
  let w2 := (wts_packed >>> 4) &&& 0x3
  let w3 := (wts_packed >>> 6) &&& 0x3
  let s : Int := 0
  let s := acc s a0 w0
  let s := acc s a1 w1
  let s := acc s a2 w2
  let s := acc s a3 w3
  s

/-- The four lane extractions of `bn_sum4_ref` (lines 35-38), lane 0 first. -/
def ref_lanes (acts_packed : Nat) : List Int :=
  [toInt8 (acts_packed >>> 0), toInt8 (acts_packed >>> 8),
   toInt8 (acts_packed >>> 16), toInt8 (acts_packed >>> 24)]

/-- The four code extractions of `bn_sum4_ref` (lines 40-43), lane 0 first. -/
def ref_codes (wts_packed : Nat) : List Nat :=
  [(wts_packed >>> 0) &&& 0x3, (wts_packed >>> 2) &&& 0x3,
   (wts_packed >>> 4) &&& 0x3, (wts_packed >>> 6) &&& 0x3]

/-- The sign `acc` gives to a code: what it accumulates from zero for the
activation value `1`. -/
def acc_sign (w2 : Nat) : Int :=
  acc 0 1 w2

/-- The value the update of `acc` has over the mathematical integers, before it
is stored back to the `int32_t` accumulator. -/
def acc_unwrapped (s : Int) (a : Int) (w2 : Nat) : Int :=
  match w2 &&& 3 with
  | 1 => s + a
  | 2 => s - a
  | _ => s

/-- The range of `int32_t`. -/
def inInt32 (z : Int) : Prop :=
  -2147483648 ≤ z ∧ z ≤ 2147483647

instance (z : Int) : Decidable (inInt32 z) := by
  unfold inInt32
  infer_instance

/-- The arguments `(*s, a, w2)` of the four calls of `acc` in `bn_sum4_ref`
(lines 46-49), in order. -/
def ref_acc_calls (acts_packed wts_packed : Nat) : List (Int × Int × Nat) :=
  let a0 := toInt8 (acts_packed >>> 0)
  let a1 := toInt8 (acts_packed >>> 8)
  let a2 := toInt8 (acts_packed >>> 16)
  let a3 := toInt8 (acts_packed >>> 24)
  let w0 := (wts_packed >>> 0) &&& 0x3
  let w1 := (wts_packed >>> 2) &&& 0x3
  let w2 := (wts_packed >>> 4) &&& 0x3
  let w3 := (wts_packed >>> 6) &&& 0x3
  let s0 : Int := 0
  let s1 := acc s0 a0 w0
  let s2 := acc s1 a1 w1
  let s3 := acc s2 a2 w2
  [(s0, a0, w0), (s1, a1, w1), (s2, a2, w2), (s3, a3, w3)]

/-! ## The instruction wrapper -/

/-- The fields of the `.insn r opcode, funct3, funct7, rd, rs1, rs2` directive
of line 11, as far as the source fixes them; the three register numbers are
chosen by the register allocator. -/
structure InsnR where
  opcode : Nat
  funct3 : Nat
  funct7 : Nat
  rd : Nat
  rs1 : Nat
  rs2 : Nat
  deriving DecidableEq, Repr

/-- The 32-bit word of an R-type instruction:
`funct7[31:25] rs2[24:20] rs1[19:15] funct3[14:12] rd[11:7] opcode[6:0]`. -/
def InsnR.encode (x : InsnR) : Nat :=
  (x.funct7 % 128) <<< 25 ||| (x.rs2 % 32) <<< 20 ||| (x.rs1 % 32) <<< 15
    ||| (x.funct3 % 8) <<< 12 ||| (x.rd % 32) <<< 7 ||| (x.opcode % 128)

/-- The instruction of line 11 for a given choice of registers. -/
def bn_sum4_insn (rd rs1 rs2 : Nat) : InsnR :=
  { opcode := 0x0b, funct3 := 0, funct7 := 0x00, rd := rd, rs1 := rs1, rs2 := rs2 }

/-- Field extraction from an instruction word. -/
def opcodeField (word : Nat) : Nat := word % 128
/-- Bits `[11:7]`. -/
def rdField (word : Nat) : Nat := word / 2 ^ 7 % 32
/-- Bits `[14:12]`. -/
def funct3Field (word : Nat) : Nat := word / 2 ^ 12 % 8
/-- Bits `[19:15]`. -/
def rs1Field (word : Nat) : Nat := word / 2 ^ 15 % 32
/-- Bits `[24:20]`. -/
def rs2Field (word : Nat) : Nat := word / 2 ^ 20 % 32
/-- Bits `[31:25]`. -/
def funct7Field (word : Nat) : Nat := word / 2 ^ 25

/-- A register file: register number to 32-bit contents. -/
abbrev RegFile := Nat → Nat

/-- Writing one register. -/
def RegFile.set (r : RegFile) (k v : Nat) : RegFile :=
  fun j => if j = k then v else r j

/-- What one call of `bn_sum4_hw` does, seen from outside. -/
structure HwCall where
  /-- The instruction words issued, in order. -/
  issued : List Nat
  /-- The register file the instruction reads. -/
  regsIn : RegFile
  /-- The register file the instruction leaves. -/
  regsOut : RegFile
  /-- The returned `int32_t`. -/
  ret : Int

/-- The function `bn_sum4_hw` of the source (lines 6-15).  The core is a
parameter `exec`, mapping an instruction word and a register file to the
register file after the instruction; `rd`, `rs1`, `rs2` are the registers the
compiler binds to `%0`, `%1`, `%2`, and `regs` holds the other registers. -/
def bn_sum4_hw_call (exec : Nat → RegFile → RegFile) (rd rs1 rs2 : Nat) (regs : RegFile)
    (acts_packed wts_packed : Nat) : HwCall :=
  let regsIn := (regs.set rs1 (acts_packed % 4294967296)).set rs2 (wts_packed % 4294967296)
  let word := (bn_sum4_insn rd rs1 rs2).encode
  let regsOut := exec word regsIn
  { issued := [word], regsIn := regsIn, regsOut := regsOut, ret := toInt32 (regsOut rd) }

/-- The value `bn_sum4_hw` returns. -/
def bn_sum4_hw (exec : Nat → RegFile → RegFile) (rd rs1 rs2 : Nat) (regs : RegFile)
    (acts_packed wts_packed : Nat) : Int :=
  (bn_sum4_hw_call exec rd rs1 rs2 regs acts_packed wts_packed).ret

/-- A core that executes the word of line 11 as the reference sum of `rs1` and
`rs2` written to `rd`, and leaves the registers alone on any other word. -/
def refCore (word : Nat) (regs : RegFile) : RegFile :=
  if opcodeField word = 0x0B ∧ funct3Field word = 0 ∧ funct7Field word = 0 then
    regs.set (rdField word)
      (Int.toNat (bn_sum4_ref (regs (rs1Field word)) (regs (rs2Field word)) % 4294967296))
  else regs

/-! ## The test driver `main` -/

/-- The constant `TEST_DONE_MAGIC` (line 4). -/
def TEST_DONE_MAGIC : Nat := 0xCAFEF00D

/-- The table `acts` of `main` (lines 56-62). -/
def acts : List Nat :=
  [0x04030201, 0x6407FEFF, 0x06FB7F80, 0x0080FF7F, 0xA50A55F0]

/-- The table `wts` of `main` (lines 64-70). -/
def wts : List Nat :=
  [0x55, 0x61, 0x92, 0x19, 0xA6]

/-- The bound `n` of the loop (line 72). -/
def nVectors : Nat := acts.length

/-- The two memory-mapped registers `main` writes. -/
inductive Reg
  | TEST_RESULT
  | TEST_DONE_FLAG
  deriving DecidableEq, Repr

/-- The observable actions of a run of `main`. -/
inductive Event
  /-- The call `bn_sum4_hw(a, w)` for vector `i` (line 78). -/
  | hwEval (i : Nat) (a w : Nat)
  /-- A store to a memory-mapped register. -/
  | write (reg : Reg) (v : Nat)
  /-- One `wfi` of a halt loop. -/
  | wfi
  deriving DecidableEq, Repr

/-- The control points of `main`. -/
inductive Pc
  /-- The loop test `i < n` of line 74, with the current `i`. -/
  | loop (i : Nat)
  /-- Before the store of line 84. -/
  | failResult (i : Nat)
  /-- Before the store of line 85. -/
  | failDone
  /-- In the halt loop of line 87. -/
  | failHalt
  /-- Before the store of line 93. -/
  | passResult
  /-- Before the store of line 94. -/
  | passDone
  /-- In the halt loop of line 97. -/
  | passHalt
  deriving DecidableEq, Repr

/-- One step of `main` from a control point: the next control point and the
actions performed.  `hw` is the hardware function called at line 78. -/
def step (hw : Nat → Nat → Int) : Pc → Pc × List Event
  | .loop i =>
    if i < nVectors then
      let a := acts.getD i 0
      let w := wts.getD i 0
      let hwv := hw a w
      let sw := bn_sum4_ref a w
      if hwv ≠ sw then (.failResult i, [.hwEval i a w])
      else (.loop (i + 1), [.hwEval i a w])
    else (.passResult, [])
  | .failResult i => (.failDone, [.write .TEST_RESULT (0xBAD00000 ||| (i &&& 0xFF))])
  | .failDone => (.failHalt, [.write .TEST_DONE_FLAG TEST_DONE_MAGIC])
  | .failHalt => (.failHalt, [.wfi])
  | .passResult => (.passDone, [.write .TEST_RESULT 0x00000001])
  | .passDone => (.passHalt, [.write .TEST_DONE_FLAG TEST_DONE_MAGIC])
  | .passHalt => (.passHalt, [.wfi])

/-- The control point and the trace after `fuel` steps from `pc`. -/
def runFrom (hw : Nat → Nat → Int) : Nat → Pc → Pc × List Event
  | 0, pc => (pc, [])
  | fuel + 1, pc =>
    let r := step hw pc
    let r2 := runFrom hw fuel r.1
    (r2.1, r.2 ++ r2.2)

/-- A run of `main` for `fuel` steps from its entry. -/
def main (hw : Nat → Nat → Int) (fuel : Nat) : Pc × List Event :=
  runFrom hw fuel (.loop 0)

/-- The register stores of a trace, in order. -/
def mmioWrites : List Event → List (Reg × Nat)
  | [] => []
  | .write reg v :: es => (reg, v) :: mmioWrites es
  | _ :: es => mmioWrites es

/-- The vector indices on which the hardware was evaluated, in order. -/
def hwEvals : List Event → List Nat
  | [] => []
  | .hwEval i _ _ :: es => i :: hwEvals es
  | _ :: es => hwEvals es

/-- The two halt loops. -/
def Pc.halted : Pc → Bool
  | .failHalt => true
  | .passHalt => true
  | _ => false

/-- The value stored to `TEST_RESULT` in a trace: the first such store, if any. -/
def resultWritten : List Event → Option Nat
  | [] => none
  | .write .TEST_RESULT v :: _ => some v
  | _ :: es => resultWritten es

/-- The hardware and the reference agree on the built-in vector `j`. -/
def hwAgrees (hw : Nat → Nat → Int) (j : Nat) : Prop :=
  hw (acts.getD j 0) (wts.getD j 0) = bn_sum4_ref (acts.getD j 0) (wts.getD j 0)

instance (hw : Nat → Nat → Int) (j : Nat) : Decidable (hwAgrees hw j) := by
  unfold hwAgrees
  infer_instance

/-- The action of evaluating the hardware on the built-in vector `i`. -/
def evalEvent (i : Nat) : Event :=
  .hwEval i (acts.getD i 0) (wts.getD i 0)

/-- A hardware function that is the reference except on the activation word of
the built-in vector 2, where it returns `0`. -/
def hwWrongAt2 (a w : Nat) : Int :=
  if a = 0x06FB7F80 then 0 else bn_sum4_ref a w

/-! ## The specification's reading of the packed words -/

/-- Sign extension of an 8-bit pattern `b < 256` to a signed integer. -/
def sext8 (b : Nat) : Int :=
  if b < 128 then (b : Int) else (b : Int) - 256

/-- Byte `i` of a word: bits `[8i+7 : 8i]`. -/
def byteOf (A : Nat) (i : Nat) : Nat :=
  A / 2 ^ (8 * i) % 256

/-- The signed 8-bit lane `i` of an activation word. -/
def laneOf (A : Nat) (i : Nat) : Int :=
  sext8 (byteOf A i)

/-- The 2-bit code of lane `i` of a weight word: bits `[2i+1 : 2i]`. -/
def codeOf (W : Nat) (i : Nat) : Nat :=
  W / 2 ^ (2 * i) % 4

/-- The sign a 2-bit code stands for: `1 ↦ +1`, `2 ↦ -1`, `0, 3 ↦ 0`. -/
def sign (c : Nat) : Int :=
  match c with
  | 1 => 1
  | 2 => -1
  | _ => 0

/-- The sign of lane `i` of a weight word. -/
def signOf (W : Nat) (i : Nat) : Int :=
  sign (codeOf W i)

/-- The sum over the four lanes of lane value times lane sign, as the
specification words it. -/
def spec_sum4 (A W : Nat) : Int :=
  ∑ i in Finset.range 4, laneOf A i * signOf W i

/-- A weight word with the two bits of lane `i` cleared: `W & ~(3u << (2 * i))`
on 32-bit words. -/
def clearLane (W i : Nat) : Nat :=
  W &&& (0xFFFFFFFF ^^^ (3 <<< (2 * i)))

/-! ## Helper lemmas -/

theorem and_three (x : Nat) : x &&& 3 = x % 4 :=
  Nat.and_pow_two_sub_one_eq_mod x 2

theorem toInt8_eq_sext8 (x : Nat) : toInt8 x = sext8 (x % 256) := by
  unfold toInt8 sext8
  rfl

theorem sext8_bounds (b : Nat) (h : b < 256) : -128 ≤ sext8 b ∧ sext8 b ≤ 127 := by
  unfold sext8
  split <;> omega

theorem laneOf_bounds (A i : Nat) : -128 ≤ laneOf A i ∧ laneOf A i ≤ 127 := by
  unfold laneOf byteOf
  exact sext8_bounds _ (Nat.mod_lt _ (by norm_num))

theorem wrapInt32_of_small (z : Int) (h1 : -2147483648 ≤ z) (h2 : z < 2147483648) :
    wrapInt32 z = z := by
  unfold wrapInt32
  omega

theorem codeOf_lt (W i : Nat) : codeOf W i < 4 := by
  unfold codeOf
  exact Nat.mod_lt _ (by norm_num)

/-- One accumulation step computes `s + a * sign code` exactly while the
accumulator is small. -/
theorem acc_exact (s a : Int) (c : Nat) (hc : c < 4)
    (hs1 : -1000 ≤ s) (hs2 : s ≤ 1000) (ha1 : -128 ≤ a) (ha2 : a ≤ 127) :
    acc s a c = s + a * sign c := by
  unfold acc
  rw [and_three, Nat.mod_eq_of_lt hc]
  interval_cases c
  · simp [sign]
  · simp only [sign]
    rw [wrapInt32_of_small _ (by omega) (by omega)]
    ring
  · simp only [sign]
    rw [wrapInt32_of_small _ (by omega) (by omega)]
    ring
  · simp [sign]

theorem sign_bounds (c : Nat) : -1 ≤ sign c ∧ sign c ≤ 1 := by
  unfold sign
  split <;> omega

theorem mul_sign_bounds (a : Int) (c : Nat) (ha1 : -128 ≤ a) (ha2 : a ≤ 127) :
    -128 ≤ a * sign c ∧ a * sign c ≤ 128 := by
  unfold sign
  split <;> omega

/-- The source's extraction of the four lanes and codes agrees with the
specification's bit ranges. -/
theorem bn_sum4_ref_unfold (A W : Nat) :
    bn_sum4_ref A W =
      acc (acc (acc (acc 0 (laneOf A 0) (codeOf W 0)) (laneOf A 1) (codeOf W 1))
        (laneOf A 2) (codeOf W 2)) (laneOf A 3) (codeOf W 3) := by
  simp only [bn_sum4_ref, laneOf, byteOf, codeOf, toInt8_eq_sext8, and_three,
    Nat.shiftRight_eq_div_pow, Nat.mod_mod]

/-- The reference is the exact (unwrapped) sum of the four lane products. -/
theorem bn_sum4_ref_eq_lanes (A W : Nat) :
    bn_sum4_ref A W =
      laneOf A 0 * signOf W 0 + laneOf A 1 * signOf W 1
        + laneOf A 2 * signOf W 2 + laneOf A 3 * signOf W 3 := by
  rw [bn_sum4_ref_unfold]
  have b0 := laneOf_bounds A 0
  have b1 := laneOf_bounds A 1
  have b2 := laneOf_bounds A 2
  have b3 := laneOf_bounds A 3
  have m0 := mul_sign_bounds (laneOf A 0) (codeOf W 0) b0.1 b0.2
  have m1 := mul_sign_bounds (laneOf A 1) (codeOf W 1) b1.1 b1.2
  have m2 := mul_sign_bounds (laneOf A 2) (codeOf W 2) b2.1 b2.2
  rw [acc_exact 0 _ _ (codeOf_lt W 0) (by omega) (by omega) b0.1 b0.2]
  rw [acc_exact _ _ _ (codeOf_lt W 1) (by omega) (by omega) b1.1 b1.2]
  rw [acc_exact _ _ _ (codeOf_lt W 2) (by omega) (by omega) b2.1 b2.2]
  rw [acc_exact _ _ _ (codeOf_lt W 3) (by omega) (by omega) b3.1 b3.2]
  simp only [signOf]
  ring

/-! ## Helper lemmas on the accumulation -/

theorem acc_unwrapped_eq (s a : Int) (c : Nat) (hc : c < 4) :
    acc_unwrapped s a c = s + a * sign c := by
  unfold acc_unwrapped
  rw [and_three, Nat.mod_eq_of_lt hc]
  interval_cases c <;> simp [sign]
  ring

/-- The four calls of `acc`, with the accumulators as exact partial sums. -/
theorem ref_acc_calls_eq (A W : Nat) :
    ref_acc_calls A W =
      [(0, laneOf A 0, codeOf W 0),
       (laneOf A 0 * signOf W 0, laneOf A 1, codeOf W 1),
       (laneOf A 0 * signOf W 0 + laneOf A 1 * signOf W 1, laneOf A 2, codeOf W 2),
       (laneOf A 0 * signOf W 0 + laneOf A 1 * signOf W 1 + laneOf A 2 * signOf W 2,
         laneOf A 3, codeOf W 3)] := by
  have b0 := laneOf_bounds A 0
  have b1 := laneOf_bounds A 1
  have b2 := laneOf_bounds A 2
  have m0 := mul_sign_bounds (laneOf A 0) (codeOf W 0) b0.1 b0.2
  have m1 := mul_sign_bounds (laneOf A 1) (codeOf W 1) b1.1 b1.2
  have s1 : acc 0 (laneOf A 0) (codeOf W 0) = laneOf A 0 * signOf W 0 := by
    rw [acc_exact 0 _ _ (codeOf_lt W 0) (by omega) (by omega) b0.1 b0.2, signOf]
    ring
  have s2 : acc (laneOf A 0 * signOf W 0) (laneOf A 1) (codeOf W 1)
      = laneOf A 0 * signOf W 0 + laneOf A 1 * signOf W 1 := by
    simp only [signOf]
    rw [acc_exact _ _ _ (codeOf_lt W 1) (by omega) (by omega) b1.1 b1.2]
  have s3 : acc (laneOf A 0 * signOf W 0 + laneOf A 1 * signOf W 1) (laneOf A 2) (codeOf W 2)
      = laneOf A 0 * signOf W 0 + laneOf A 1 * signOf W 1 + laneOf A 2 * signOf W 2 := by
    simp only [signOf]
    rw [acc_exact _ _ _ (codeOf_lt W 2) (by omega) (by omega) b2.1 b2.2]
  have hu : ref_acc_calls A W =
      [(0, laneOf A 0, codeOf W 0),
       (acc 0 (laneOf A 0) (codeOf W 0), laneOf A 1, codeOf W 1),
       (acc (acc 0 (laneOf A 0) (codeOf W 0)) (laneOf A 1) (codeOf W 1),
         laneOf A 2, codeOf W 2),
       (acc (acc (acc 0 (laneOf A 0) (codeOf W 0)) (laneOf A 1) (codeOf W 1))
         (laneOf A 2) (codeOf W 2), laneOf A 3, codeOf W 3)] := by
    simp only [ref_acc_calls, laneOf, byteOf, codeOf, toInt8_eq_sext8, and_three,
      Nat.shiftRight_eq_div_pow, Nat.mod_mod]
  rw [hu, s1, s2, s3]

/-! ## Helper lemmas on the driver -/

theorem runFrom_add (hw : Nat → Nat → Int) (m n : Nat) (pc : Pc) :
    runFrom hw (m + n) pc =
      ((runFrom hw n (runFrom hw m pc).1).1,
        (runFrom hw m pc).2 ++ (runFrom hw n (runFrom hw m pc).1).2) := by
  induction m generalizing pc with
  | zero => simp [runFrom]
  | succ m ih =>
    rw [Nat.succ_add]
    simp only [runFrom]
    rw [ih]
    simp [List.append_assoc]

theorem runFrom_failHalt (hw : Nat → Nat → Int) (n : Nat) :
    runFrom hw n .failHalt = (.failHalt, List.replicate n .wfi) := by
  induction n with
  | zero => rfl
  | succ n ih => simp [runFrom, step, ih, List.replicate_succ]

theorem runFrom_passHalt (hw : Nat → Nat → Int) (n : Nat) :
    runFrom hw n .passHalt = (.passHalt, List.replicate n .wfi) := by
  induction n with
  | zero => rfl
  | succ n ih => simp [runFrom, step, ih, List.replicate_succ]

theorem step_loop_agree (hw : Nat → Nat → Int) (i : Nat) (hi : i < 5) (h : hwAgrees hw i) :
    step hw (.loop i) = (.loop (i + 1), [evalEvent i]) := by
  unfold hwAgrees at h
  simp [step, nVectors, acts, evalEvent, hi, h] at *
  simp [h]

theorem step_loop_differ (hw : Nat → Nat → Int) (i : Nat) (hi : i < 5) (h : ¬ hwAgrees hw i) :
    step hw (.loop i) = (.failResult i, [evalEvent i]) := by
  unfold hwAgrees at h
  simp [step, nVectors, acts, evalEvent, hi, h] at *
  simp [h]

theorem step_loop_exit (hw : Nat → Nat → Int) : step hw (.loop 5) = (.passResult, []) := by
  simp [step, nVectors, acts]

/-- While the hardware agrees, `m` iterations from index `i` evaluate the vectors
`i, ..., i + m - 1` in order and do nothing else. -/
theorem runFrom_loop_agree (hw : Nat → Nat → Int) (m i : Nat) (him : i + m ≤ 5)
    (h : ∀ j, i ≤ j → j < i + m → hwAgrees hw j) :
    runFrom hw m (.loop i) = (.loop (i + m), (List.range' i m).map evalEvent) := by
  induction m generalizing i with
  | zero => simp [runFrom]
  | succ m ih =>
    have hstep := step_loop_agree hw i (by omega) (h i (le_refl i) (by omega))
    have hrec := ih (i + 1) (by omega) (fun j h1 h2 => h j (by omega) (by omega))
    simp only [runFrom, hstep, hrec]
    simp [List.range'_succ, Nat.add_assoc, Nat.add_comm 1 m]

theorem and_ff_of_le (k : Nat) (hk : k ≤ 4) : k &&& 0xFF = k := by
  interval_cases k <;> rfl

/-- The whole trace of a run whose first disagreement is at vector `k`. -/
theorem main_trace_fail (hw : Nat → Nat → Int) (k : Nat) (hk : k ≤ 4)
    (hpre : ∀ j, j < k → hwAgrees hw j) (hbad : ¬ hwAgrees hw k) (extra : Nat) :
    main hw (k + 3 + extra) =
      (.failHalt,
        (List.range (k + 1)).map evalEvent
          ++ [.write .TEST_RESULT (0xBAD00000 ||| k), .write .TEST_DONE_FLAG 0xCAFEF00D]
          ++ List.replicate extra .wfi) := by
  have h1 := runFrom_loop_agree hw k 0 (by omega) (fun j _ h2 => hpre j (by omega))
  have h2 := step_loop_differ hw k (by omega) hbad
  have e : k + 3 + extra = k + (3 + extra) := by omega
  unfold main
  rw [e, runFrom_add, h1]
  simp only [Nat.zero_add]
  rw [runFrom_add hw 3 extra]
  simp only [runFrom, h2]
  simp only [step, runFrom_failHalt, and_ff_of_le k hk, TEST_DONE_MAGIC]
  simp [List.range_eq_range', List.range'_concat]

/-- The whole trace of a run on which the hardware agrees on all five vectors. -/
theorem main_trace_pass (hw : Nat → Nat → Int) (hall : ∀ j, j < 5 → hwAgrees hw j)
    (extra : Nat) :
    main hw (8 + extra) =
      (.passHalt,
        (List.range 5).map evalEvent
          ++ [.write .TEST_RESULT 0x00000001, .write .TEST_DONE_FLAG 0xCAFEF00D]
          ++ List.replicate extra .wfi) := by
  have h1 := runFrom_loop_agree hw 5 0 (by omega) (fun j _ h2 => hall j (by omega))
  have e : 8 + extra = 5 + (3 + extra) := by omega
  unfold main
  rw [e, runFrom_add, h1]
  simp only [Nat.zero_add]
  rw [runFrom_add hw 3 extra]
  simp only [runFrom, step_loop_exit]
  simp only [step, runFrom_passHalt, TEST_DONE_MAGIC]
  simp [List.range_eq_range']

theorem mmioWrites_append (l1 l2 : List Event) :
    mmioWrites (l1 ++ l2) = mmioWrites l1 ++ mmioWrites l2 := by
  induction l1 with
  | nil => rfl
  | cons e l ih => cases e <;> simp [mmioWrites, ih]

theorem hwEvals_append (l1 l2 : List Event) :
    hwEvals (l1 ++ l2) = hwEvals l1 ++ hwEvals l2 := by
  induction l1 with
  | nil => rfl
  | cons e l ih => cases e <;> simp [hwEvals, ih]

theorem mmioWrites_map_evalEvent (l : List Nat) : mmioWrites (l.map evalEvent) = [] := by
  induction l with
  | nil => rfl
  | cons i l ih => simp [evalEvent, mmioWrites, ih]

theorem hwEvals_map_evalEvent (l : List Nat) : hwEvals (l.map evalEvent) = l := by
  induction l with
  | nil => rfl
  | cons i l ih => simp [evalEvent, hwEvals, ih]

theorem mmioWrites_replicate_wfi (n : Nat) : mmioWrites (List.replicate n .wfi) = [] := by
  induction n with
  | zero => rfl
  | succ n ih => simp [List.replicate_succ, mmioWrites, ih]

theorem hwEvals_replicate_wfi (n : Nat) : hwEvals (List.replicate n .wfi) = [] := by
  induction n with
  | zero => rfl
  | succ n ih => simp [List.replicate_succ, hwEvals, ih]

/-- The stores and evaluations of a trace of the shape every run has. -/
theorem trace_shape (l : List Nat) (v d n : Nat) :
    mmioWrites (l.map evalEvent ++ [.write .TEST_RESULT v, .write .TEST_DONE_FLAG d]
        ++ List.replicate n .wfi) = [(.TEST_RESULT, v), (.TEST_DONE_FLAG, d)]
      ∧ hwEvals (l.map evalEvent ++ [.write .TEST_RESULT v, .write .TEST_DONE_FLAG d]
        ++ List.replicate n .wfi) = l := by
  simp [mmioWrites_append, hwEvals_append, mmioWrites_map_evalEvent, hwEvals_map_evalEvent,
    mmioWrites_replicate_wfi, hwEvals_replicate_wfi, mmioWrites, hwEvals]

/-- Either the hardware agrees on all five vectors or there is a first vector on
which it differs. -/
theorem agree_or_first_mismatch (hw : Nat → Nat → Int) :
    (∀ j, j < 5 → hwAgrees hw j)
      ∨ ∃ k, k ≤ 4 ∧ (∀ j, j < k → hwAgrees hw j) ∧ ¬ hwAgrees hw k := by
  by_cases h : ∀ j, j < 5 → hwAgrees hw j
  · exact Or.inl h
  · right
    have hex : ∃ k, k < 5 ∧ ¬ hwAgrees hw k := by
      by_contra hne
      apply h
      intro j hj
      by_contra hj2
      exact hne ⟨j, hj, hj2⟩
    refine ⟨Nat.find hex, ?_, ?_, (Nat.find_spec hex).2⟩
    · have := (Nat.find_spec hex).1
      omega
    · intro j hj
      by_contra hj2
      exact Nat.find_min hex hj ⟨by have := (Nat.find_spec hex).1; omega, hj2⟩

theorem resultWritten_map_evalEvent_append (l : List Nat) (rest : List Event) :
    resultWritten (l.map evalEvent ++ rest) = resultWritten rest := by
  induction l with
  | nil => rfl
  | cons i l ih => simpa [evalEvent, resultWritten] using ih

/-- The result store of a trace of the shape every run has. -/
theorem resultWritten_shape (l : List Nat) (v d n : Nat) :
    resultWritten (l.map evalEvent ++ [.write .TEST_RESULT v, .write .TEST_DONE_FLAG d]
        ++ List.replicate n .wfi) = some v := by
  rw [List.append_assoc, resultWritten_map_evalEvent_append]
  rfl

theorem fail_code_eq (k : Nat) (hk : k ≤ 4) : 0xBAD00000 ||| k = 0xBAD00000 + k := by
  interval_cases k <;> rfl

/-! ## Helper lemmas on single lanes -/

theorem codeOf_eq_shift (W j : Nat) : codeOf W j = (W >>> (2 * j)) &&& 3 := by
  rw [and_three, Nat.shiftRight_eq_div_pow, codeOf]

theorem shiftRight_and_three (W M s : Nat) :
    ((W &&& M) >>> s) &&& 3 = ((W >>> s) &&& 3) &&& ((M >>> s) &&& 3) := by
  apply Nat.eq_of_testBit_eq
  intro k
  simp only [Nat.testBit_and, Nat.testBit_shiftRight]
  cases W.testBit (s + k) <;> cases M.testBit (s + k) <;> cases Nat.testBit 3 k <;> rfl

theorem codeOf_and (W M j : Nat) : codeOf (W &&& M) j = codeOf W j &&& codeOf M j := by
  simp only [codeOf_eq_shift]
  exact shiftRight_and_three W M (2 * j)

theorem and_three_of_lt (x : Nat) (h : x < 4) : x &&& 3 = x := by
  rw [and_three]
  omega

theorem codeOf_mask (i j : Nat) (hi : i < 4) (hj : j < 4) :
    codeOf (0xFFFFFFFF ^^^ (3 <<< (2 * i))) j = if j = i then 0 else 3 := by
  interval_cases i <;> interval_cases j <;> rfl

/-- Clearing lane `i` zeroes the code of lane `i` and keeps the other three. -/
theorem codeOf_clearLane (W i j : Nat) (hi : i < 4) (hj : j < 4) :
    codeOf (clearLane W i) j = if j = i then 0 else codeOf W j := by
  unfold clearLane
  rw [codeOf_and, codeOf_mask i j hi hj]
  split
  · exact Nat.and_zero _
  · exact and_three_of_lt _ (codeOf_lt W j)

theorem sign_zero : sign 0 = 0 := rfl

theorem sign_three : sign 3 = 0 := rfl

/-! ## Helper lemmas on whole weight words -/

theorem shiftRight_xor_three (W M s : Nat) :
    ((W ^^^ M) >>> s) &&& 3 = ((W >>> s) &&& 3) ^^^ ((M >>> s) &&& 3) := by
  apply Nat.eq_of_testBit_eq
  intro k
  simp only [Nat.testBit_and, Nat.testBit_xor, Nat.testBit_shiftRight]
  cases W.testBit (s + k) <;> cases M.testBit (s + k) <;> cases Nat.testBit 3 k <;> rfl

theorem codeOf_xor (W M j : Nat) : codeOf (W ^^^ M) j = codeOf W j ^^^ codeOf M j := by
  simp only [codeOf_eq_shift]
  exact shiftRight_xor_three W M (2 * j)

theorem codeOf_ff (j : Nat) (hj : j < 4) : codeOf 0xFF j = 3 := by
  interval_cases j <;> rfl

theorem xor_three_of_lt (c : Nat) (hc : c < 4) : c ^^^ 3 = 3 - c := by
  interval_cases c <;> rfl

theorem sign_three_sub (c : Nat) (hc : c < 4) : sign (3 - c) = - sign c := by
  interval_cases c <;> rfl

/-- Flipping the low eight bits of the weight word negates every lane sign. -/
theorem signOf_xor_ff (W j : Nat) (hj : j < 4) : signOf (W ^^^ 0xFF) j = - signOf W j := by
  unfold signOf
  rw [codeOf_xor, codeOf_ff j hj, xor_three_of_lt _ (codeOf_lt W j),
    sign_three_sub _ (codeOf_lt W j)]

/-- Masking the weight word to its low eight bits keeps every lane code. -/
theorem codeOf_and_ff (W j : Nat) (hj : j < 4) : codeOf (W &&& 0xFF) j = codeOf W j := by
  rw [codeOf_and, codeOf_ff j hj, and_three_of_lt _ (codeOf_lt W j)]

theorem w2_to_int_eq_sign (c : Nat) : w2_to_int c = sign c := by
  unfold w2_to_int sign
  split
  · next h => subst h; rfl
  · split
    · next h => subst h; rfl
    · next h1 h2 =>
      split
      · exact absurd rfl h1
      · exact absurd rfl h2
      · rfl

/-! ## Helper lemmas on the instruction word -/

theorem or_eq_add_of_dvd (x b i : Nat) (hx : 2 ^ i ∣ x) (hb : b < 2 ^ i) : x ||| b = x + b := by
  obtain ⟨a, rfl⟩ := hx
  exact (Nat.mul_add_lt_is_or hb a).symm

/-- The instruction word as a sum of its shifted fields. -/
theorem encode_eq_sum (x : InsnR) :
    x.encode = x.funct7 % 128 * 2 ^ 25 + x.rs2 % 32 * 2 ^ 20 + x.rs1 % 32 * 2 ^ 15
      + x.funct3 % 8 * 2 ^ 12 + x.rd % 32 * 2 ^ 7 + x.opcode % 128 := by
  have h7 := Nat.mod_lt x.funct7 (show 0 < 128 by norm_num)
  have h2 := Nat.mod_lt x.rs2 (show 0 < 32 by norm_num)
  have h1 := Nat.mod_lt x.rs1 (show 0 < 32 by norm_num)
  have h3 := Nat.mod_lt x.funct3 (show 0 < 8 by norm_num)
  have hd := Nat.mod_lt x.rd (show 0 < 32 by norm_num)
  have ho := Nat.mod_lt x.opcode (show 0 < 128 by norm_num)
  unfold InsnR.encode
  simp only [Nat.shiftLeft_eq]
  generalize x.funct7 % 128 = f7 at *
  generalize x.rs2 % 32 = r2 at *
  generalize x.rs1 % 32 = r1 at *
  generalize x.funct3 % 8 = f3 at *
  generalize x.rd % 32 = d at *
  generalize x.opcode % 128 = o at *
  have e1 : f7 * 2 ^ 25 ||| r2 * 2 ^ 20 = f7 * 2 ^ 25 + r2 * 2 ^ 20 :=
    or_eq_add_of_dvd _ _ 25 (Dvd.intro_left _ rfl) (by omega)
  have e2 : f7 * 2 ^ 25 + r2 * 2 ^ 20 ||| r1 * 2 ^ 15
      = f7 * 2 ^ 25 + r2 * 2 ^ 20 + r1 * 2 ^ 15 :=
    or_eq_add_of_dvd _ _ 20 (by omega) (by omega)
  have e3 : f7 * 2 ^ 25 + r2 * 2 ^ 20 + r1 * 2 ^ 15 ||| f3 * 2 ^ 12
      = f7 * 2 ^ 25 + r2 * 2 ^ 20 + r1 * 2 ^ 15 + f3 * 2 ^ 12 :=
    or_eq_add_of_dvd _ _ 15 (by omega) (by omega)
  have e4 : f7 * 2 ^ 25 + r2 * 2 ^ 20 + r1 * 2 ^ 15 + f3 * 2 ^ 12 ||| d * 2 ^ 7
      = f7 * 2 ^ 25 + r2 * 2 ^ 20 + r1 * 2 ^ 15 + f3 * 2 ^ 12 + d * 2 ^ 7 :=
    or_eq_add_of_dvd _ _ 12 (by omega) (by omega)
  have e5 : f7 * 2 ^ 25 + r2 * 2 ^ 20 + r1 * 2 ^ 15 + f3 * 2 ^ 12 + d * 2 ^ 7 ||| o
      = f7 * 2 ^ 25 + r2 * 2 ^ 20 + r1 * 2 ^ 15 + f3 * 2 ^ 12 + d * 2 ^ 7 + o :=
    or_eq_add_of_dvd _ _ 7 (by omega) (by omega)
  rw [e1, e2, e3, e4, e5]

/-- The cast to `int32_t` gives the one integer of the signed 32-bit range that
is congruent to its argument modulo `2 ^ 32`. -/
theorem toInt32_signed (x : Nat) :
    -2147483648 ≤ toInt32 x ∧ toInt32 x ≤ 2147483647
      ∧ (toInt32 x - (x : Int)) % 4294967296 = 0 := by
  unfold toInt32
  split <;> omega

/-! ## Claims -/

/-- C1: for all activation words `A` and weight words `W`, `bn_sum4_ref A W` is
the sum over lanes `i = 0..3` of the sign-extended byte `i` of `A` times the sign
of the 2-bit code `i` of `W`, with `sign 1 = +1`, `sign 2 = -1` and
`sign 0 = sign 3 = 0`. -/
theorem bn_sum4_ref_eq_spec_sum4 (A W : Nat) :
    bn_sum4_ref A W = spec_sum4 A W
      ∧ sign 1 = 1 ∧ sign 2 = -1 ∧ sign 0 = 0 ∧ sign 3 = 0 := by
  refine ⟨?_, rfl, rfl, rfl, rfl⟩
  rw [bn_sum4_ref_eq_lanes]
  simp [spec_sum4, Finset.sum_range_succ]

/-- C2: the built-in vector 2 has activation word `0x06FB7F80`, which the
reference decodes to the signed lanes `[-128, 127, -5, 6]`, and weight word `0x92`.
The reference decodes `0x92` to the codes `[2, 0, 1, 2]`, that is to the lane signs
`[-1, 0, +1, -1]` and not to the `[-1, +1, 0, -1]` of the comment on line 67 (which
is the word `0x86`), and the reference sum of the pair is `117`, not `249`. -/
theorem vector2_decode_and_sum :
    acts.getD 2 0 = 0x06FB7F80 ∧ wts.getD 2 0 = 0x92
      ∧ ref_lanes 0x06FB7F80 = [-128, 127, -5, 6]
      ∧ (List.range 4).map (laneOf 0x06FB7F80) = [-128, 127, -5, 6]
      ∧ ref_codes 0x92 = [2, 0, 1, 2]
      ∧ (ref_codes 0x92).map acc_sign = [-1, 0, 1, -1]
      ∧ (List.range 4).map (signOf 0x92) = [-1, 0, 1, -1]
      ∧ (ref_codes 0x92).map acc_sign ≠ [-1, 1, 0, -1]
      ∧ bn_sum4_ref 0x06FB7F80 0x92 = 117
      ∧ bn_sum4_ref 0x06FB7F80 0x92 ≠ 249
      ∧ (ref_codes 0x86).map acc_sign = [-1, 1, 0, -1]
      ∧ bn_sum4_ref 0x06FB7F80 0x86 = 249 := by
  decide

/-- C3: the built-in vector 1 has activation word `0x6407FEFF`, which the
reference decodes to the signed lanes `[-1, -2, 7, 100]`, and weight word `0x61`,
which decodes to the lane signs `[+1, 0, -1, +1]` (lane 0 first); the reference
sum of the pair is `92`. -/
theorem vector1_decode_and_sum :
    acts.getD 1 0 = 0x6407FEFF ∧ wts.getD 1 0 = 0x61
      ∧ ref_lanes 0x6407FEFF = [-1, -2, 7, 100]
      ∧ (ref_codes 0x61).map acc_sign = [1, 0, -1, 1]
      ∧ (List.range 4).map (laneOf 0x6407FEFF) = [-1, -2, 7, 100]
      ∧ (List.range 4).map (signOf 0x61) = [1, 0, -1, 1]
      ∧ bn_sum4_ref 0x6407FEFF 0x61 = 92 := by
  decide

/-- C4: the built-in vector 0 has activation word `0x04030201`, which the
reference decodes to the signed lanes `[1, 2, 3, 4]`, and weight word `0x55`,
which decodes to the lane signs `[+1, +1, +1, +1]`; the reference sum of the pair
is `10`. -/
theorem vector0_decode_and_sum :
    acts.getD 0 0 = 0x04030201 ∧ wts.getD 0 0 = 0x55
      ∧ ref_lanes 0x04030201 = [1, 2, 3, 4]
      ∧ (ref_codes 0x55).map acc_sign = [1, 1, 1, 1]
      ∧ (List.range 4).map (laneOf 0x04030201) = [1, 2, 3, 4]
      ∧ (List.range 4).map (signOf 0x55) = [1, 1, 1, 1]
      ∧ bn_sum4_ref 0x04030201 0x55 = 10 := by
  decide

/-- C5: for every hardware function `hw` and every index `k` in `0..4` such that
`hw` agrees with `bn_sum4_ref` on the built-in vectors `0..k-1` and differs on
vector `k`, every run of at least `k + 3` steps has halted in the failure loop;
its trace is the evaluations of vectors `0..k` in order, the store of
`0xBAD00000 | k` to `TEST_RESULT`, the store of `0xCAFEF00D` to `TEST_DONE_FLAG`
and then only `wfi`; so the hardware is evaluated on vectors `0..k` only. -/
theorem main_first_mismatch (hw : Nat → Nat → Int) (k : Nat) (hk : k ≤ 4)
    (hpre : ∀ j, j < k → hwAgrees hw j) (hbad : ¬ hwAgrees hw k)
    (fuel : Nat) (hfuel : k + 3 ≤ fuel) :
    (main hw fuel).1 = .failHalt
      ∧ (main hw fuel).2 =
          (List.range (k + 1)).map evalEvent
            ++ [.write .TEST_RESULT (0xBAD00000 ||| k), .write .TEST_DONE_FLAG 0xCAFEF00D]
            ++ List.replicate (fuel - (k + 3)) .wfi
      ∧ mmioWrites (main hw fuel).2
          = [(.TEST_RESULT, 0xBAD00000 ||| k), (.TEST_DONE_FLAG, 0xCAFEF00D)]
      ∧ hwEvals (main hw fuel).2 = List.range (k + 1) := by
  obtain ⟨extra, rfl⟩ := Nat.exists_eq_add_of_le hfuel
  rw [main_trace_fail hw k hk hpre hbad extra]
  have hs := trace_shape (List.range (k + 1)) (0xBAD00000 ||| k) 0xCAFEF00D extra
  rw [Nat.add_sub_cancel_left]
  exact ⟨rfl, rfl, hs.1, hs.2⟩

/-- C5, at `k = 2`: a hardware function that is wrong on vector 2 only gives
`TEST_RESULT = 0xBAD00002`, `TEST_DONE_FLAG = 0xCAFEF00D`, and evaluations of the
vectors 0, 1 and 2 only. -/
theorem main_first_mismatch_witness :
    (main hwWrongAt2 5).1 = .failHalt
      ∧ (main hwWrongAt2 5).2 =
          [.hwEval 0 0x04030201 0x55, .hwEval 1 0x6407FEFF 0x61, .hwEval 2 0x06FB7F80 0x92,
           .write .TEST_RESULT 0xBAD00002, .write .TEST_DONE_FLAG 0xCAFEF00D]
      ∧ mmioWrites (main hwWrongAt2 5).2
          = [(.TEST_RESULT, 0xBAD00002), (.TEST_DONE_FLAG, 0xCAFEF00D)]
      ∧ hwEvals (main hwWrongAt2 5).2 = [0, 1, 2] :=
  main_first_mismatch hwWrongAt2 2 (by decide) (by decide) (by decide) 5 (by decide)

/-- C6: for every hardware function `hw` that agrees with `bn_sum4_ref` on all five
built-in vectors, every run of at least 8 steps has halted in the success loop;
its trace is the evaluations of vectors `0..4` in index order, the store of
`0x00000001` to `TEST_RESULT`, the store of `0xCAFEF00D` to `TEST_DONE_FLAG` and
then only `wfi`. -/
theorem main_all_match (hw : Nat → Nat → Int) (hall : ∀ j, j < 5 → hwAgrees hw j)
    (fuel : Nat) (hfuel : 8 ≤ fuel) :
    (main hw fuel).1 = .passHalt
      ∧ (main hw fuel).2 =
          (List.range 5).map evalEvent
            ++ [.write .TEST_RESULT 0x00000001, .write .TEST_DONE_FLAG 0xCAFEF00D]
            ++ List.replicate (fuel - 8) .wfi
      ∧ mmioWrites (main hw fuel).2
          = [(.TEST_RESULT, 0x00000001), (.TEST_DONE_FLAG, 0xCAFEF00D)]
      ∧ hwEvals (main hw fuel).2 = [0, 1, 2, 3, 4] := by
  obtain ⟨extra, rfl⟩ := Nat.exists_eq_add_of_le hfuel
  rw [main_trace_pass hw hall extra]
  have hs := trace_shape (List.range 5) 0x00000001 0xCAFEF00D extra
  rw [Nat.add_sub_cancel_left]
  exact ⟨rfl, rfl, hs.1, hs.2⟩

/-- C6, with the reference itself as the hardware: the run evaluates the five
vectors in order, stores `1` and `0xCAFEF00D`, and halts. -/
theorem main_all_match_witness :
    (main bn_sum4_ref 9).1 = .passHalt
      ∧ (main bn_sum4_ref 9).2 =
          [.hwEval 0 0x04030201 0x55, .hwEval 1 0x6407FEFF 0x61, .hwEval 2 0x06FB7F80 0x92,
           .hwEval 3 0x0080FF7F 0x19, .hwEval 4 0xA50A55F0 0xA6,
           .write .TEST_RESULT 1, .write .TEST_DONE_FLAG 0xCAFEF00D, .wfi]
      ∧ mmioWrites (main bn_sum4_ref 9).2
          = [(.TEST_RESULT, 1), (.TEST_DONE_FLAG, 0xCAFEF00D)]
      ∧ hwEvals (main bn_sum4_ref 9).2 = [0, 1, 2, 3, 4] :=
  main_all_match bn_sum4_ref (fun _ _ => rfl) 9 (by decide)

/-- C7: for every hardware function `hw` there is a value `v`, either `0x00000001`
or `0xBAD00000 | k` with `0 ≤ k ≤ 4`, such that in every run of 8 or more steps
the stores are exactly the store of `v` to `TEST_RESULT` followed by the store of
`0xCAFEF00D` to `TEST_DONE_FLAG`; the trace is vector evaluations, then these two
stores, then only `wfi`; the run is in a halt loop, and from there any number of
further steps stays in the same loop and performs only `wfi`. -/
theorem main_writes_exactly_two (hw : Nat → Nat → Int) :
    ∃ v : Nat, ∃ evals : List Nat, ∃ n0 : Nat,
      (v = 0x00000001 ∨ ∃ k, k ≤ 4 ∧ v = 0xBAD00000 ||| k) ∧ n0 ≤ 8 ∧
      ∀ extra : Nat,
        mmioWrites (main hw (8 + extra)).2
            = [(.TEST_RESULT, v), (.TEST_DONE_FLAG, 0xCAFEF00D)]
          ∧ (main hw (8 + extra)).2 =
              evals.map evalEvent
                ++ [.write .TEST_RESULT v, .write .TEST_DONE_FLAG 0xCAFEF00D]
                ++ List.replicate (8 + extra - n0) .wfi
          ∧ (main hw (8 + extra)).1.halted = true
          ∧ ∀ more, runFrom hw more (main hw (8 + extra)).1
              = ((main hw (8 + extra)).1, List.replicate more .wfi) := by
  rcases agree_or_first_mismatch hw with hall | ⟨k, hk, hpre, hbad⟩
  · refine ⟨0x00000001, List.range 5, 8, Or.inl rfl, le_refl 8, ?_⟩
    intro extra
    rw [main_trace_pass hw hall extra]
    have hs := trace_shape (List.range 5) 0x00000001 0xCAFEF00D extra
    rw [Nat.add_sub_cancel_left]
    exact ⟨hs.1, rfl, rfl, fun more => runFrom_passHalt hw more⟩
  · refine ⟨0xBAD00000 ||| k, List.range (k + 1), k + 3, Or.inr ⟨k, hk, rfl⟩, by omega, ?_⟩
    intro extra
    have e : 8 + extra = k + 3 + (5 - k + extra) := by omega
    rw [e, main_trace_fail hw k hk hpre hbad (5 - k + extra)]
    have hs := trace_shape (List.range (k + 1)) (0xBAD00000 ||| k) 0xCAFEF00D (5 - k + extra)
    rw [Nat.add_sub_cancel_left]
    exact ⟨hs.1, rfl, rfl, fun more => runFrom_failHalt hw more⟩

/-- C8: for every weight word `W`, every lane `i` in `0..3` whose 2-bit code in `W`
is `0` or `3`, and all activation words `A`, `A'` whose bytes other than byte `i`
are equal, `bn_sum4_ref A W = bn_sum4_ref A' W`, and the result equals
`bn_sum4_ref A` of `W` with the two bits of lane `i` cleared. -/
theorem zero_code_lane_ignored (W i A A' : Nat) (hi : i < 4)
    (hc : codeOf W i = 0 ∨ codeOf W i = 3)
    (hdiff : ∀ j, j < 4 → j ≠ i → byteOf A j = byteOf A' j) :
    bn_sum4_ref A W = bn_sum4_ref A' W
      ∧ bn_sum4_ref A W = bn_sum4_ref A (clearLane W i) := by
  have hs : sign (codeOf W i) = 0 := by
    rcases hc with h | h <;> rw [h] <;> rfl
  simp only [bn_sum4_ref_eq_lanes, signOf, laneOf]
  interval_cases i
  · have h1 := hdiff 1 (by omega) (by omega)
    have h2 := hdiff 2 (by omega) (by omega)
    have h3 := hdiff 3 (by omega) (by omega)
    simp [codeOf_clearLane, hs, h1, h2, h3, sign_zero]
  · have h0 := hdiff 0 (by omega) (by omega)
    have h2 := hdiff 2 (by omega) (by omega)
    have h3 := hdiff 3 (by omega) (by omega)
    simp [codeOf_clearLane, hs, h0, h2, h3, sign_zero]
  · have h0 := hdiff 0 (by omega) (by omega)
    have h1 := hdiff 1 (by omega) (by omega)
    have h3 := hdiff 3 (by omega) (by omega)
    simp [codeOf_clearLane, hs, h0, h1, h3, sign_zero]
  · have h0 := hdiff 0 (by omega) (by omega)
    have h1 := hdiff 1 (by omega) (by omega)
    have h2 := hdiff 2 (by omega) (by omega)
    simp [codeOf_clearLane, hs, h0, h1, h2, sign_zero]

/-- C8, at the byte values `0x80` and `0x7F`: with code `3` in lane 1 of `W = 0x9D`,
the activation words `0x06FB8080` and `0x06FB7F80` give the same sum, which is
also the sum for `W` with lane 1 cleared (`0x91`). -/
theorem zero_code_lane_ignored_witness :
    bn_sum4_ref 0x06FB8080 0x9D = bn_sum4_ref 0x06FB7F80 0x9D
      ∧ bn_sum4_ref 0x06FB8080 0x9D = bn_sum4_ref 0x06FB8080 (clearLane 0x9D 1) :=
  zero_code_lane_ignored 0x9D 1 0x06FB8080 0x06FB7F80 (by decide) (by decide) (by decide)

/-- C9: for every activation word `A`, weight word `W` and lane `i` in `0..3`, with
`W0` the word `W` with the two bits of lane `i` cleared and `v` the sign-extended
byte `i` of `A`: if the code of lane `i` is `1` then
`bn_sum4_ref A W = bn_sum4_ref A W0 + v`, and if it is `2` then
`bn_sum4_ref A W = bn_sum4_ref A W0 - v`. -/
theorem signed_code_lane_contribution (A W i : Nat) (hi : i < 4) :
    (codeOf W i = 1 → bn_sum4_ref A W = bn_sum4_ref A (clearLane W i) + laneOf A i)
      ∧ (codeOf W i = 2 → bn_sum4_ref A W = bn_sum4_ref A (clearLane W i) - laneOf A i) := by
  simp only [bn_sum4_ref_eq_lanes, signOf]
  constructor
  · intro h
    interval_cases i <;> simp [codeOf_clearLane, h, sign] <;> ring
  · intro h
    interval_cases i <;> simp [codeOf_clearLane, h, sign] <;> ring

/-- C9, at byte `0x80` in lane 0: code `1` contributes `-128` and code `2`
contributes `+128`. -/
theorem signed_code_lane_contribution_witness :
    (bn_sum4_ref 0x80 0x1 = bn_sum4_ref 0x80 (clearLane 0x1 0) + laneOf 0x80 0
      ∧ bn_sum4_ref 0x80 0x2 = bn_sum4_ref 0x80 (clearLane 0x2 0) - laneOf 0x80 0)
      ∧ laneOf 0x80 0 = -128 ∧ bn_sum4_ref 0x80 0x2 = 128 ∧ bn_sum4_ref 0x80 0x1 = -128 :=
  ⟨⟨(signed_code_lane_contribution 0x80 0x1 0 (by decide)).1 (by decide),
    (signed_code_lane_contribution 0x80 0x2 0 (by decide)).2 (by decide)⟩,
   by decide, by decide, by decide⟩

/-- C10: `bn_sum4_hw A W`, for any core and any registers `rd`, `rs1`, `rs2` bound
to the three operands, issues exactly one instruction word; the word is a 32-bit
R-type word with opcode field `0x0B`, funct3 field `0` and funct7 field `0` whose
register fields are `rd`, `rs1`, `rs2`; the core reads `A` in `rs1` and `W` in
`rs2`; and the returned value is what the instruction leaves in `rd`, read as a
signed 32-bit integer: it lies in `[-2^31, 2^31 - 1]` and is congruent modulo `2^32`
to the contents of `rd`, so contents of `2^31` and above are returned as negative
values. -/
theorem bn_sum4_hw_issues_custom0 (exec : Nat → RegFile → RegFile) (rd rs1 rs2 : Nat)
    (regs : RegFile) (A W : Nat) (hrd : rd < 32) (hrs1 : rs1 < 32) (hrs2 : rs2 < 32)
    (hne : rs1 ≠ rs2 ∨ A = W) (hA : A < 4294967296) (hW : W < 4294967296) :
    ∃ word : Nat,
      (bn_sum4_hw_call exec rd rs1 rs2 regs A W).issued = [word]
        ∧ word < 4294967296
        ∧ opcodeField word = 0x0B ∧ funct3Field word = 0 ∧ funct7Field word = 0
        ∧ rdField word = rd ∧ rs1Field word = rs1 ∧ rs2Field word = rs2
        ∧ (bn_sum4_hw_call exec rd rs1 rs2 regs A W).regsIn (rs1Field word) = A
        ∧ (bn_sum4_hw_call exec rd rs1 rs2 regs A W).regsIn (rs2Field word) = W
        ∧ (bn_sum4_hw_call exec rd rs1 rs2 regs A W).regsOut
            = exec word (bn_sum4_hw_call exec rd rs1 rs2 regs A W).regsIn
        ∧ bn_sum4_hw exec rd rs1 rs2 regs A W
            = toInt32 ((bn_sum4_hw_call exec rd rs1 rs2 regs A W).regsOut (rdField word))
        ∧ -2147483648 ≤ bn_sum4_hw exec rd rs1 rs2 regs A W
        ∧ bn_sum4_hw exec rd rs1 rs2 regs A W ≤ 2147483647
        ∧ (bn_sum4_hw exec rd rs1 rs2 regs A W
            - ((bn_sum4_hw_call exec rd rs1 rs2 regs A W).regsOut (rdField word) : Int))
              % 4294967296 = 0
        ∧ (2147483648 ≤ (bn_sum4_hw_call exec rd rs1 rs2 regs A W).regsOut (rdField word)
              % 4294967296 →
            bn_sum4_hw exec rd rs1 rs2 regs A W < 0) := by
  have hw := encode_eq_sum (bn_sum4_insn rd rs1 rs2)
  simp only [bn_sum4_insn] at hw
  have hfd : rdField (bn_sum4_insn rd rs1 rs2).encode = rd := by
    unfold rdField
    simp only [bn_sum4_insn]
    omega
  have hf1 : rs1Field (bn_sum4_insn rd rs1 rs2).encode = rs1 := by
    unfold rs1Field
    simp only [bn_sum4_insn]
    omega
  have hf2 : rs2Field (bn_sum4_insn rd rs1 rs2).encode = rs2 := by
    unfold rs2Field
    simp only [bn_sum4_insn]
    omega
  refine ⟨(bn_sum4_insn rd rs1 rs2).encode, rfl, ?_, ?_, ?_, ?_, hfd, hf1, hf2, ?_, ?_, rfl, ?_, ?_⟩
  · simp only [bn_sum4_insn]
    omega
  · unfold opcodeField
    simp only [bn_sum4_insn]
    omega
  · unfold funct3Field
    simp only [bn_sum4_insn]
    omega
  · unfold funct7Field
    simp only [bn_sum4_insn]
    omega
  · rw [hf1]
    simp only [bn_sum4_hw_call, RegFile.set, Nat.mod_eq_of_lt hA, Nat.mod_eq_of_lt hW]
    rcases hne with h | h
    · simp [h]
    · simp [h]
  · rw [hf2]
    simp [bn_sum4_hw_call, RegFile.set, Nat.mod_eq_of_lt hW]
  · rw [hfd]
    rfl
  · rw [hfd]
    have hs := toInt32_signed ((bn_sum4_hw_call exec rd rs1 rs2 regs A W).regsOut rd)
    have hr : bn_sum4_hw exec rd rs1 rs2 regs A W
        = toInt32 ((bn_sum4_hw_call exec rd rs1 rs2 regs A W).regsOut rd) := rfl
    rw [hr]
    refine ⟨hs.1, hs.2.1, hs.2.2, ?_⟩
    intro hbig
    omega

/-- C10, with `a0`, `a0`, `a1` as the registers, the activation word `0x80` and the
weight word `0x1`, on a core that executes the word as the reference sum: the one
word issued is `0x00B5050B`, the core leaves `0xFFFFFF80` in `rd`, and the call
returns `-128`, not `4294967168`. -/
theorem bn_sum4_hw_issues_custom0_witness :
    (∃ word : Nat,
      (bn_sum4_hw_call refCore 10 10 11 (fun _ => 0) 0x80 0x1).issued = [word]
        ∧ word < 4294967296
        ∧ opcodeField word = 0x0B ∧ funct3Field word = 0 ∧ funct7Field word = 0
        ∧ rdField word = 10 ∧ rs1Field word = 10 ∧ rs2Field word = 11
        ∧ (bn_sum4_hw_call refCore 10 10 11 (fun _ => 0) 0x80 0x1).regsIn (rs1Field word) = 0x80
        ∧ (bn_sum4_hw_call refCore 10 10 11 (fun _ => 0) 0x80 0x1).regsIn (rs2Field word) = 0x1
        ∧ (bn_sum4_hw_call refCore 10 10 11 (fun _ => 0) 0x80 0x1).regsOut
            = refCore word (bn_sum4_hw_call refCore 10 10 11 (fun _ => 0) 0x80 0x1).regsIn
        ∧ bn_sum4_hw refCore 10 10 11 (fun _ => 0) 0x80 0x1
            = toInt32 ((bn_sum4_hw_call refCore 10 10 11 (fun _ => 0) 0x80 0x1).regsOut
                (rdField word))
        ∧ -2147483648 ≤ bn_sum4_hw refCore 10 10 11 (fun _ => 0) 0x80 0x1
        ∧ bn_sum4_hw refCore 10 10 11 (fun _ => 0) 0x80 0x1 ≤ 2147483647
        ∧ (bn_sum4_hw refCore 10 10 11 (fun _ => 0) 0x80 0x1
            - ((bn_sum4_hw_call refCore 10 10 11 (fun _ => 0) 0x80 0x1).regsOut
                (rdField word) : Int)) % 4294967296 = 0
        ∧ (2147483648 ≤ (bn_sum4_hw_call refCore 10 10 11 (fun _ => 0) 0x80 0x1).regsOut
              (rdField word) % 4294967296 →
            bn_sum4_hw refCore 10 10 11 (fun _ => 0) 0x80 0x1 < 0))
      ∧ (bn_sum4_hw_call refCore 10 10 11 (fun _ => 0) 0x80 0x1).issued = [0x00B5050B]
      ∧ (bn_sum4_hw_call refCore 10 10 11 (fun _ => 0) 0x80 0x1).regsOut 10 = 0xFFFFFF80
      ∧ bn_sum4_hw refCore 10 10 11 (fun _ => 0) 0x80 0x1 = -128
      ∧ bn_sum4_hw refCore 10 10 11 (fun _ => 0) 0x04030201 0x55 = 10 :=
  ⟨bn_sum4_hw_issues_custom0 refCore 10 10 11 (fun _ => 0) 0x80 0x1
      (by decide) (by decide) (by decide) (Or.inl (by decide)) (by decide) (by decide),
    by decide, by decide, by decide, by decide⟩

/-- C11: the lane decompositions in the comments of the built-in vectors 3 and 4
are what the reference decode extracts: `0x0080FF7F` decodes to the lanes
`[127, -1, -128, 0]` and `0x19` to the signs `[+1, -1, +1, 0]`, with reference sum
`0`; `0xA50A55F0` decodes to the lanes `[-16, 85, 10, -91]` and `0xA6` to the signs
`[-1, +1, -1, -1]`, with reference sum `182`. -/
theorem vectors34_decode_and_sum :
    (acts.getD 3 0 = 0x0080FF7F ∧ wts.getD 3 0 = 0x19
      ∧ ref_lanes 0x0080FF7F = [127, -1, -128, 0]
      ∧ (ref_codes 0x19).map acc_sign = [1, -1, 1, 0]
      ∧ (List.range 4).map (laneOf 0x0080FF7F) = [127, -1, -128, 0]
      ∧ (List.range 4).map (signOf 0x19) = [1, -1, 1, 0]
      ∧ bn_sum4_ref 0x0080FF7F 0x19 = 0)
    ∧ (acts.getD 4 0 = 0xA50A55F0 ∧ wts.getD 4 0 = 0xA6
      ∧ ref_lanes 0xA50A55F0 = [-16, 85, 10, -91]
      ∧ (ref_codes 0xA6).map acc_sign = [-1, 1, -1, -1]
      ∧ (List.range 4).map (laneOf 0xA50A55F0) = [-16, 85, 10, -91]
      ∧ (List.range 4).map (signOf 0xA6) = [-1, 1, -1, -1]
      ∧ bn_sum4_ref 0xA50A55F0 0xA6 = 182) := by
  decide

/-- C12: for each of the five built-in weight words `0x55`, `0x61`, `0x92`, `0x19`,
`0xA6` and each of the four lanes, the 2-bit code the reference decode extracts is
`0`, `1` or `2`, never `3`. -/
theorem builtin_codes_never_three :
    wts = [0x55, 0x61, 0x92, 0x19, 0xA6]
      ∧ (∀ w ∈ wts, (ref_codes w).length = 4
          ∧ ∀ c ∈ ref_codes w, (c = 0 ∨ c = 1 ∨ c = 2) ∧ c ≠ 3)
      ∧ (∀ w ∈ wts, ∀ i, i < 4 → (codeOf w i = 0 ∨ codeOf w i = 1 ∨ codeOf w i = 2)
          ∧ codeOf w i ≠ 3) := by
  decide

/-- C13: for every hardware function `hw`, the value a run of 8 or more steps has
stored to `TEST_RESULT` is `0x00000001` if and only if `hw` agrees with
`bn_sum4_ref` on all five built-in vectors; otherwise it is `0xBAD00000 | k` for the
smallest index `k` at which they differ.  No failure code equals the success code,
and distinct first-failure indices give distinct codes. -/
theorem main_result_code (hw : Nat → Nat → Int) (extra : Nat) :
    (resultWritten (main hw (8 + extra)).2 = some 0x00000001
        ↔ ∀ j, j < 5 → hwAgrees hw j)
      ∧ ((¬ ∀ j, j < 5 → hwAgrees hw j) →
          ∃ k, k ≤ 4 ∧ ¬ hwAgrees hw k ∧ (∀ j, j < k → hwAgrees hw j)
            ∧ resultWritten (main hw (8 + extra)).2 = some (0xBAD00000 ||| k))
      ∧ (∀ k, k ≤ 4 → 0xBAD00000 ||| k ≠ 0x00000001)
      ∧ (∀ k k2, k ≤ 4 → k2 ≤ 4 → 0xBAD00000 ||| k = 0xBAD00000 ||| k2 → k = k2) := by
  have hne : ∀ k, k ≤ 4 → 0xBAD00000 ||| k ≠ 0x00000001 := by
    intro k hk
    rw [fail_code_eq k hk]
    omega
  have hinj : ∀ k k2, k ≤ 4 → k2 ≤ 4 → 0xBAD00000 ||| k = 0xBAD00000 ||| k2 → k = k2 := by
    intro k k2 hk hk2
    rw [fail_code_eq k hk, fail_code_eq k2 hk2]
    omega
  refine ⟨?_, ?_, hne, hinj⟩
  · rcases agree_or_first_mismatch hw with hall | ⟨k, hk, hpre, hbad⟩
    · rw [main_trace_pass hw hall extra, resultWritten_shape]
      exact ⟨fun _ => hall, fun _ => rfl⟩
    · have e : 8 + extra = k + 3 + (5 - k + extra) := by omega
      rw [e, main_trace_fail hw k hk hpre hbad (5 - k + extra), resultWritten_shape]
      constructor
      · intro h
        exact absurd (Option.some.inj h) (hne k hk)
      · intro hall
        exact absurd (hall k (by omega)) hbad
  · intro hnot
    rcases agree_or_first_mismatch hw with hall | ⟨k, hk, hpre, hbad⟩
    · exact absurd hall hnot
    · have e : 8 + extra = k + 3 + (5 - k + extra) := by omega
      refine ⟨k, hk, hbad, hpre, ?_⟩
      rw [e, main_trace_fail hw k hk hpre hbad (5 - k + extra), resultWritten_shape]

/-- C13, on two hardware functions: the reference itself agrees on all five
vectors and gives the result `1`; a hardware that is wrong on vector 2 only does
not agree on all five and gives a failure code `0xBAD00000 | k` for its first
mismatch `k`, and the value stored is `0xBAD00002`. -/
theorem main_result_code_witness :
    ((∀ j, j < 5 → hwAgrees bn_sum4_ref j)
        ∧ resultWritten (main bn_sum4_ref 8).2 = some 0x00000001)
      ∧ ((¬ ∀ j, j < 5 → hwAgrees hwWrongAt2 j)
        ∧ ∃ k, k ≤ 4 ∧ ¬ hwAgrees hwWrongAt2 k ∧ (∀ j, j < k → hwAgrees hwWrongAt2 j)
            ∧ resultWritten (main hwWrongAt2 8).2 = some (0xBAD00000 ||| k))
      ∧ resultWritten (main hwWrongAt2 8).2 = some 0xBAD00002 :=
  ⟨⟨fun _ _ => rfl, (main_result_code bn_sum4_ref 0).1.mpr (fun _ _ => rfl)⟩,
   ⟨by decide, (main_result_code hwWrongAt2 0).2.1 (by decide)⟩,
   by decide⟩

/-- C14: for all activation words `A` and weight words `W`,
`-512 ≤ bn_sum4_ref A W ≤ 512`; in each of the four calls of `acc` the exact value
of the update lies in the `int32_t` range, so the wrapping update equals the exact
one, and the result is the exact integer sum over the lanes.  Both bounds are
attained: `bn_sum4_ref 0x80808080 0xAA = 512` and
`bn_sum4_ref 0x80808080 0x55 = -512`. -/
theorem bn_sum4_ref_bounds (A W : Nat) :
    (-512 ≤ bn_sum4_ref A W ∧ bn_sum4_ref A W ≤ 512)
      ∧ (ref_acc_calls A W).length = 4
      ∧ (∀ c ∈ ref_acc_calls A W,
          inInt32 (acc_unwrapped c.1 c.2.1 c.2.2)
            ∧ acc c.1 c.2.1 c.2.2 = acc_unwrapped c.1 c.2.1 c.2.2)
      ∧ bn_sum4_ref A W = spec_sum4 A W
      ∧ bn_sum4_ref 0x80808080 0xAA = 512
      ∧ bn_sum4_ref 0x80808080 0x55 = -512 := by
  have b0 := laneOf_bounds A 0
  have b1 := laneOf_bounds A 1
  have b2 := laneOf_bounds A 2
  have b3 := laneOf_bounds A 3
  have m0 := mul_sign_bounds (laneOf A 0) (codeOf W 0) b0.1 b0.2
  have m1 := mul_sign_bounds (laneOf A 1) (codeOf W 1) b1.1 b1.2
  have m2 := mul_sign_bounds (laneOf A 2) (codeOf W 2) b2.1 b2.2
  have m3 := mul_sign_bounds (laneOf A 3) (codeOf W 3) b3.1 b3.2
  have hsum := bn_sum4_ref_eq_lanes A W
  simp only [signOf] at hsum
  refine ⟨⟨by omega, by omega⟩, by rw [ref_acc_calls_eq]; rfl, ?_, ?_, by decide, by decide⟩
  · intro c hc
    rw [ref_acc_calls_eq] at hc
    simp only [List.mem_cons, List.mem_singleton, List.not_mem_nil, or_false, signOf] at hc
    rcases hc with rfl | rfl | rfl | rfl
    · simp only
      rw [acc_unwrapped_eq _ _ _ (codeOf_lt W 0),
        acc_exact _ _ _ (codeOf_lt W 0) (by omega) (by omega) b0.1 b0.2]
      exact ⟨⟨by omega, by omega⟩, rfl⟩
    · simp only
      rw [acc_unwrapped_eq _ _ _ (codeOf_lt W 1),
        acc_exact _ _ _ (codeOf_lt W 1) (by omega) (by omega) b1.1 b1.2]
      exact ⟨⟨by omega, by omega⟩, rfl⟩
    · simp only
      rw [acc_unwrapped_eq _ _ _ (codeOf_lt W 2),
        acc_exact _ _ _ (codeOf_lt W 2) (by omega) (by omega) b2.1 b2.2]
      exact ⟨⟨by omega, by omega⟩, rfl⟩
    · simp only
      rw [acc_unwrapped_eq _ _ _ (codeOf_lt W 3),
        acc_exact _ _ _ (codeOf_lt W 3) (by omega) (by omega) b3.1 b3.2]
      exact ⟨⟨by omega, by omega⟩, rfl⟩
  · rw [bn_sum4_ref_eq_lanes]
    simp [spec_sum4, Finset.sum_range_succ]

/-- C15: for all activation words `A` and weight words `W`,
`bn_sum4_ref A (W XOR 0xFF) = - bn_sum4_ref A W`: flipping both bits of every lane
code swaps the codes `1` and `2` and the codes `0` and `3`, which negates the
sum. -/
theorem bn_sum4_ref_xor_ff (A W : Nat) :
    bn_sum4_ref A (W ^^^ 0xFF) = - bn_sum4_ref A W
      ∧ (∀ j, j < 4 → codeOf (W ^^^ 0xFF) j = 3 - codeOf W j)
      ∧ sign (3 - 1) = - sign 1 ∧ sign (3 - 2) = - sign 2
      ∧ sign (3 - 0) = sign 0 ∧ sign (3 - 3) = sign 3 := by
  refine ⟨?_, ?_, rfl, rfl, rfl, rfl⟩
  · rw [bn_sum4_ref_eq_lanes, bn_sum4_ref_eq_lanes,
      signOf_xor_ff W 0 (by omega), signOf_xor_ff W 1 (by omega),
      signOf_xor_ff W 2 (by omega), signOf_xor_ff W 3 (by omega)]
    ring
  · intro j hj
    rw [codeOf_xor, codeOf_ff j hj, xor_three_of_lt _ (codeOf_lt W j)]

/-- C16: for all activation words `A` and weight words `W`,
`bn_sum4_ref A W = bn_sum4_ref A (W AND 0xFF)`: the bits 8 and above of the weight
word never affect the result. -/
theorem bn_sum4_ref_and_ff (A W : Nat) :
    bn_sum4_ref A W = bn_sum4_ref A (W &&& 0xFF) := by
  simp only [bn_sum4_ref_eq_lanes, signOf]
  rw [codeOf_and_ff W 0 (by omega), codeOf_and_ff W 1 (by omega),
    codeOf_and_ff W 2 (by omega), codeOf_and_ff W 3 (by omega)]

/-- C17: for every accumulator value `s` with `|s| ≤ 384`, every signed 8-bit `a`
and every 2-bit code `w2` in `0..3`, `acc` leaves the accumulator equal to
`s + a * w2_to_int w2`; the helper `w2_to_int` and the switch of `acc` give the
same sign to each 2-bit code. -/
theorem acc_eq_w2_to_int (s a : Int) (w2 : Nat) (hs : -384 ≤ s ∧ s ≤ 384)
    (ha : -128 ≤ a ∧ a ≤ 127) (hw2 : w2 < 4) :
    acc s a w2 = s + a * w2_to_int w2 ∧ acc_sign w2 = w2_to_int w2 := by
  constructor
  · rw [w2_to_int_eq_sign]
    exact acc_exact s a w2 hw2 (by omega) (by omega) ha.1 ha.2
  · unfold acc_sign
    rw [w2_to_int_eq_sign,
      acc_exact 0 1 w2 hw2 (by omega) (by omega) (by omega) (by omega)]
    ring

/-- C17, at the accumulator `384`, the activation `-128` and the code `2`: `acc`
leaves `512`, which is `384 + (-128) * w2_to_int 2`. -/
theorem acc_eq_w2_to_int_witness :
    (acc 384 (-128) 2 = 384 + (-128) * w2_to_int 2 ∧ acc_sign 2 = w2_to_int 2)
      ∧ acc 384 (-128) 2 = 512 :=
  ⟨acc_eq_w2_to_int 384 (-128) 2 (by decide) (by decide) (by decide), by decide⟩

end BnSum4
